import Mathlib

/-!
Verification of the branch-tree / recursive-rebase tool (git_tools.py).

The development shallowly embeds the program: the VCS backend (the raw text
output of each git query) is a value of the structure Backend, and every
function of the source file (gather_upstreams, current_branch,
commit_count_difference, upstream_tree, flow, fill_table,
branch_tree_string, TermString) is translated into a pure Lean function
over it.  Fallible Python code (IndexError on a missing output line,
ValueError from int(), TypeError from re-formatting an already formatted
field, KeyError on a dict lookup) is modelled with Except String.
Python's exit() with no argument raises SystemExit(None), which terminates
the process with exit status 0; it is modelled by the trace event
FEvent.exited 0.
-/

namespace GitTools

/-! ### Python string primitives

Core String operations of Lean (startsWith, splitOn, toInt?, decidableLE)
do not reduce inside the kernel, so the byte-free operations the program
needs are defined directly on the underlying character lists.  Python
compares strings lexicographically by code point, which is exactly chLe.
-/

/-- Code-point lexicographic string comparison, as Python compares str. -/
def chLe : List Char → List Char → Bool
  | [], _ => true
  | _ :: _, [] => false
  | a :: as, b :: bs =>
    if a.toNat < b.toNat then true
    else if b.toNat < a.toNat then false
    else chLe as bs

/-- Python s1 <= s2 on strings. -/
def pyStrLe (a b : String) : Prop := chLe a.data b.data = true

instance : DecidableRel pyStrLe := fun a b => by unfold pyStrLe; infer_instance

/-- Helper of pyStartsWith and pyIn: is the first list a leading segment of the second. -/
def chPre : List Char → List Char → Bool
  | [], _ => true
  | _ :: _, [] => false
  | a :: as, b :: bs => a == b && chPre as bs

/-- Does pat occur as a contiguous run inside s (substring containment). -/
def chContains (s pat : List Char) : Bool :=
  match s with
  | [] => chPre pat []
  | _ :: rest => chPre pat s || chContains rest pat

/-- Python s.startswith(p). -/
def pyStartsWith (s p : String) : Bool := chPre p.data s.data

/-- Python membership test sub in s on strings (substring containment). -/
def pyIn (sub s : String) : Bool := chContains s.data sub.data

/-- Python int() on a decimal digit, or none. -/
def digit? (c : Char) : Option Nat :=
  if 48 ≤ c.val ∧ c.val ≤ 57 then some (c.toNat - 48) else none

/-- Accumulating decimal parse of a digit list. -/
def digitsVal (acc : Nat) : List Char → Option Nat
  | [] => some acc
  | c :: rest =>
    match digit? c with
    | some d => digitsVal (acc * 10 + d) rest
    | none => none

/-- Python int(s) for the plain decimal strings git emits; ValueError otherwise. -/
def pyint (s : String) : Except String Int :=
  match s.data with
  | [] => .error "ValueError: invalid literal for int()"
  | '-' :: (c :: rest) =>
    match digitsVal 0 (c :: rest) with
    | some n => .ok (-(n : Int))
    | none => .error "ValueError: invalid literal for int()"
  | ds =>
    match digitsVal 0 ds with
    | some n => .ok (n : Int)
    | none => .error "ValueError: invalid literal for int()"

/-! ### TermString (git_tools.py lines 8-40) -/

/-- The formatting tags of TermString.formats. -/
inductive Fmt where
  | GREEN
  | CYAN
  | BOLD
  | YELLOW
  | RED
  | END
deriving DecidableEq

/-- TermString.formats: the ANSI escape code of each tag. -/
def fmtCode : Fmt → String
  | .GREEN => "\x1b[92m"
  | .CYAN => "\x1b[96m"
  | .BOLD => "\x1b[1m"
  | .YELLOW => "\x1b[33m"
  | .RED => "\x1b[31m"
  | .END => "\x1b[0m"

/-- A TermString object: the plain string stored as self._string (already the
str() of the constructor argument) and the formatting tag tuple. -/
structure TermString where
  string : String
  formatting : List Fmt
deriving DecidableEq

/-- TermString.__repr__: wrap the string in each format code plus the END code. -/
def TermString.pyRepr (ts : TermString) : String :=
  ts.formatting.foldl (fun out f => fmtCode f ++ out ++ fmtCode Fmt.END) ts.string

/-- TermString.__len__: the length of the plain underlying string. -/
def TermString.pyLen (ts : TermString) : Nat := ts.string.length

/-! ### The VCS backend

One Backend value fixes the text every git invocation of one program run
returns: exe_cmd(...).splitlines() for the query commands, and the raw
stdout for git rebase.  refPairs is the for-each-ref output already split
at the separating space into (branch, upstream) pairs; a branch with no
upstream yields the empty string, as the %(upstream:short) format does.
-/

structure Backend where
  refPairs : List (String × String)
  currentLines : List String
  revListLines : String → String → List String
  hashLines : String → List String
  titleLines : String → List String
  rebaseOut : String → String → String

/-- Helper for the splitlines()[0] pattern: IndexError when no line came back. -/
def firstLine (who : String) (lines : List String) : Except String String :=
  match lines with
  | [] => .error (who ++ ": IndexError: list index out of range")
  | l :: _ => .ok l

/-- current_branch (lines 51-56): first output line of git rev-parse. -/
def current_branch (bk : Backend) : Except String String :=
  firstLine "current_branch" bk.currentLines

/-- latest_commit_hash (lines 59-64). -/
def latest_commit_hash (bk : Backend) (branch : String) : Except String String :=
  firstLine "latest_commit_hash" (bk.hashLines branch)

/-- latest_commit_title (lines 67-72). -/
def latest_commit_title (bk : Backend) (branch : String) : Except String String :=
  firstLine "latest_commit_title" (bk.titleLines branch)

/-- gather_upstreams (lines 75-101): empty upstream and upstreams starting
with origin/ are normalized to none. -/
def gather_upstreams (bk : Backend) : List (String × Option String) :=
  bk.refPairs.map fun p =>
    (p.1, if p.2 = "" ∨ pyStartsWith p.2 "origin/" then none else some p.2)

/-- commit_count_difference (lines 104-125): none if either ref is none or
if the rev-list query produced no output line; otherwise int() of the
first line. -/
def commit_count_difference (bk : Backend) (a b : Option String) :
    Except String (Option Int) :=
  match a, b with
  | none, _ => .ok none
  | some _, none => .ok none
  | some x, some y =>
    match bk.revListLines x y with
    | [] => .ok none
    | l :: _ => (pyint l).map some

/-! ### upstream_tree (lines 146-206)

The Python function returns a dict of branch name to TreeNode, where the
children lists hold references to other nodes of the same dict.  The
embedding keeps the dict as an association list in insertion order and
stores children by name.
-/

/-- The fields of a TreeNode as upstream_tree leaves them (build state:
ahead and behind are Optional[int]). -/
structure NodeData where
  name : String
  children : List String
  ahead : Option Int
  behind : Option Int
  title : String
  hash : String
  active : Bool
  root : Bool
deriving DecidableEq

/-- TreeNode.__init__ (lines 164-173). -/
def initNode (name : String) : NodeData :=
  { name := name, children := [], ahead := some 0, behind := some 0,
    title := "", hash := "", active := false, root := false }

/-- Mutate the node stored under key k of the dict. -/
def updateNode (m : List (String × NodeData)) (k : String)
    (f : NodeData → NodeData) : List (String × NodeData) :=
  m.map fun p => if p.1 = k then (p.1, f p.2) else p

/-- The metadata writes of the loop body (lines 187-193): node.behind,
node.ahead, node.hash, node.title, and node.active = True when the branch
is the active one. -/
def setMeta (behind ahead : Option Int) (hsh ttl : String) (isActive : Bool)
    (n : NodeData) : NodeData :=
  { n with behind := behind, ahead := ahead, hash := hsh, title := ttl,
           active := if isActive then true else n.active }

/-- parent.children.append(node) (line 197), by branch name. -/
def addChild (branch : String) (n : NodeData) : NodeData :=
  { n with children := n.children ++ [branch] }

/-- node.root = True (line 199). -/
def setRoot (n : NodeData) : NodeData := { n with root := true }

/-- One iteration of the for branch, upstream loop (lines 183-199): set the
metadata of the branch node, then either append it to its upstream parent
or mark it root. -/
def processBranch (bk : Backend) (active : String) (allKeys : List String)
    (nodes : List (String × NodeData)) (p : String × Option String) :
    Except String (List (String × NodeData)) := do
  let branch := p.1
  let upstream := p.2
  let behind ← commit_count_difference bk (some branch) upstream
  let ahead ← commit_count_difference bk upstream (some branch)
  let hsh ← latest_commit_hash bk branch
  let ttl ← latest_commit_title bk branch
  let nodes := updateNode nodes branch (setMeta behind ahead hsh ttl (branch == active))
  match upstream with
  | some u =>
    if allKeys.contains u then
      pure (updateNode nodes u (addChild branch))
    else
      pure (updateNode nodes branch setRoot)
  | none => pure (updateNode nodes branch setRoot)

/-- The final children sort (lines 202-204).  Python list.sort is a stable
sort by name; on the duplicate-free children lists produced here any
stable sort agrees with insertion sort. -/
def sortChildren (nodes : List (String × NodeData)) : List (String × NodeData) :=
  nodes.map fun p => (p.1, { p.2 with children := p.2.children.insertionSort pyStrLe })

/-- upstream_tree (lines 146-206). -/
def upstream_tree (bk : Backend) : Except String (List (String × NodeData)) := do
  let branches := gather_upstreams bk
  let nodes0 := branches.map fun p => (p.1, initNode p.1)
  let active ← current_branch bk
  let nodes ← branches.foldlM (processBranch bk active (branches.map Prod.fst)) nodes0
  pure (sortChildren nodes)

/-! ### flow (lines 209-234)

flow only reads the name and children fields of the nodes it traverses, so
its view of the forest is materialized as the rose tree FTree; toFTree
resolves the child names through the dict, with fuel standing in for the
call stack (the Python recursion would not terminate on a cyclic upstream
configuration either).  The observable behaviour of flow is its trace of
events: the progress prints, the git rebase invocations with their result
text, the printed conflict text, the exit (Python exit() with no argument
leaves the process with status 0) and the final checkout.
-/

inductive FTree where
  | node (name : String) (children : List FTree)

/-- Branch name of a tree node. -/
def FTree.name : FTree → String
  | .node n _ => n

/-- Children of a tree node. -/
def FTree.children : FTree → List FTree
  | .node _ cs => cs

/-- Materialize the subtree of one branch out of the node dict. -/
def toFTree (nodes : List (String × NodeData)) : Nat → String → Except String FTree
  | 0, _ => .error "RecursionError: maximum recursion depth exceeded"
  | fuel + 1, name =>
    match nodes.lookup name with
    | none => .error "KeyError"
    | some nd => do
      let cs ← nd.children.mapM (toFTree nodes fuel)
      pure (.node name cs)

inductive FEvent where
  | progress (name : String)
  | rebaseCall (upstream child result : String)
  | printResult (text : String)
  | exited (code : Nat)
  | newline
  | checkoutCall (branch : String)
deriving DecidableEq

mutual

/-- recursive_rebase (lines 218-228): the returned Bool is true when exit()
fired, i.e. SystemExit is propagating. -/
def recursive_rebase (reb : String → String → String) (t : FTree) :
    List FEvent × Bool :=
  match t with
  | .node name cs => rebaseChildren reb name cs cs

/-- The for child in node.children loop body of recursive_rebase.  full is
node.children itself, consulted by the if node.children check before the
recursive call (inside the loop it is necessarily nonempty, so the
recursion always descends into the child just rebased). -/
def rebaseChildren (reb : String → String → String) (nodeName : String)
    (full : List FTree) (cs : List FTree) : List FEvent × Bool :=
  match cs with
  | [] => ([], false)
  | c :: rest =>
    let result := reb nodeName c.name
    let evs := [FEvent.progress c.name, FEvent.rebaseCall nodeName c.name result]
    if pyIn "CONFLICT" result then
      (evs ++ [FEvent.printResult result, FEvent.exited 0], true)
    else
      let sub := if full.isEmpty then ([], false) else recursive_rebase reb c
      if sub.2 then
        (evs ++ sub.1, true)
      else
        let restRes := rebaseChildren reb nodeName full rest
        (evs ++ sub.1 ++ restRes.1, restRes.2)

end

/-- The prefix of flow (lines 230-231) that determines the start branch and
its subtree: parent = current_branch(); root_node = upstream_tree()[parent]. -/
def flowStart (bk : Backend) (fuel : Nat) : Except String (String × FTree) := do
  let parent ← current_branch bk
  let nodes ← upstream_tree bk
  let t ← toFTree nodes fuel parent
  pure (parent, t)

/-- flow (lines 209-234): trace of the whole run.  When exit() fired the
trace ends there; otherwise the blank-line print and the checkout back to
the start branch follow. -/
def flow (bk : Backend) (fuel : Nat) : Except String (List FEvent) := do
  let (parent, t) ← flowStart bk fuel
  let res := recursive_rebase bk.rebaseOut t
  if res.2 then
    pure res.1
  else
    pure (res.1 ++ [FEvent.newline, FEvent.checkoutCall parent])

/-- The rebase invocations of a trace, in order. -/
def rebasePairs (evs : List FEvent) : List (String × String) :=
  evs.filterMap fun e =>
    match e with
    | .rebaseCall u c _ => some (u, c)
    | _ => none

mutual

/-- The parent-child edges of a tree in depth-first pre-order: each edge
directly followed by the whole block of its child's subtree edges. -/
def preorderPairs (t : FTree) : List (String × String) :=
  match t with
  | .node n cs => preorderPairsL n cs

/-- preorderPairs over a children list. -/
def preorderPairsL (n : String) : List FTree → List (String × String)
  | [] => []
  | c :: rest => ((n, c.name) :: preorderPairs c) ++ preorderPairsL n rest

end

mutual

/-- All subtrees of a tree, itself included. -/
def subtrees (t : FTree) : List FTree :=
  match t with
  | .node n cs => .node n cs :: subtreesL cs

/-- All subtrees of the trees of a list. -/
def subtreesL : List FTree → List FTree
  | [] => []
  | c :: rest => subtrees c ++ subtreesL rest

end

/-! ### branch_tree_string (lines 237-329)

fill_table mutates the nodes it visits (name, behind, ahead are overwritten
with their formatted forms), so a Python field may hold an int, None, a
str or a TermString.  Cell is the str-or-TermString case, NumField the
full range of the behind and ahead fields.  fill_table is embedded as a
function returning both the emitted table rows and the mutated forest; the
TypeErrors that arise when formatting runs twice are Except errors.
-/

inductive Cell where
  | s (v : String)
  | t (v : TermString)
deriving DecidableEq

/-- Python len() of a cell: str length, or TermString.__len__. -/
def Cell.len : Cell → Nat
  | .s v => v.length
  | .t v => v.pyLen

/-- Python str() of a cell: the str itself, or TermString.__repr__. -/
def Cell.pyStr : Cell → String
  | .s v => v
  | .t v => v.pyRepr

/-- The plain text of a cell, escape codes excluded. -/
def Cell.plain : Cell → String
  | .s v => v
  | .t v => v.string

/-- A value of the behind or ahead field: an int or None from the builder,
or the formatted cell fill_table overwrote it with. -/
inductive NumField where
  | int (n : Int)
  | pyNone
  | cell (c : Cell)
deriving DecidableEq

/-- A TreeNode as the renderer sees it. -/
structure RNodeData where
  name : Cell
  behind : NumField
  ahead : NumField
  title : String
  hash : String
  active : Bool
  root : Bool
deriving DecidableEq

inductive RTree where
  | node (data : RNodeData) (children : List RTree)

/-- Node data at the root of a render tree. -/
def rootData : RTree → RNodeData
  | .node d _ => d

/-- Direct children count, the first component of the root sort key. -/
def childCount : RTree → Nat
  | .node _ cs => cs.length

/-- The name field of a render node as a sort key (a plain str at sort
time, since sorting happens before any fill_table mutation). -/
def RTree.nameKey : RTree → String
  | .node d _ => d.name.plain

/-- Build-state view of a flat node for rendering. -/
def toRData (nd : NodeData) : RNodeData :=
  { name := .s nd.name,
    behind := match nd.behind with
      | some n => .int n
      | none => .pyNone,
    ahead := match nd.ahead with
      | some n => .int n
      | none => .pyNone,
    title := nd.title, hash := nd.hash, active := nd.active, root := nd.root }

/-- Materialize the subtree of one branch out of the node dict for the
renderer. -/
def toRTree (nodes : List (String × NodeData)) : Nat → String → Except String RTree
  | 0, _ => .error "RecursionError: maximum recursion depth exceeded"
  | fuel + 1, name =>
    match nodes.lookup name with
    | none => .error "KeyError"
    | some nd => do
      let cs ← nd.children.mapM (toRTree nodes fuel)
      pure (.node (toRData nd) cs)

/-- Line 262-263: if node.active, node.name is overwritten with
TermString(node.name, BOLD, GREEN); str() of the old cell is taken by the
TermString constructor. -/
def colorName (active : Bool) (name : Cell) : Cell :=
  if active then .t { string := name.pyStr, formatting := [Fmt.BOLD, Fmt.GREEN] } else name

/-- Lines 270-273: the behind count coloring.  On a cell (a re-render of an
already mutated node) Python evaluates -node.behind on a str or TermString
and raises TypeError. -/
def colorBehind : NumField → Except String Cell
  | .pyNone => .ok (.s "")
  | .int n =>
    .ok (if -n < 0 then .t { string := toString (-n), formatting := [Fmt.RED] } else .s " 0")
  | .cell _ => .error "TypeError: bad operand type for unary -"

/-- Lines 275-280: the ahead count coloring; node.ahead > 0 on a str or
TermString raises TypeError. -/
def colorAhead : NumField → Except String Cell
  | .pyNone => .ok (.s "")
  | .int n =>
    .ok (if 0 < n then .t { string := "+" ++ toString n, formatting := [Fmt.GREEN] } else .s " 0")
  | .cell _ => .error "TypeError: not supported between instances of str and int"

/-- One table row (lines 282-291): always exactly the six appended cells. -/
structure Row where
  pipe : Cell
  name : Cell
  behind : Cell
  ahead : Cell
  title : Cell
  hash : Cell
deriving DecidableEq

mutual

/-- fill_table (lines 260-297).  Returns the rows this subtree contributed
and the subtree as the in-place mutation left it. -/
def fill_table (t : RTree) (pre : String) (isFirst isLast : Bool) :
    Except String (List Row × RTree) :=
  match t with
  | .node d cs => do
    let name := colorName d.active d.name
    let pipe := if isFirst then "" else pre ++ (if isLast then "└─ " else "├─ ")
    let nextPre := if isLast then pre ++ "    " else "│   "
    let behind ← colorBehind d.behind
    let ahead ← colorAhead d.ahead
    let row : Row :=
      { pipe := .s pipe, name := name, behind := behind, ahead := ahead,
        title := .s (d.title.take 50),
        hash := .t { string := d.hash, formatting := [Fmt.YELLOW] } }
    let d' := { d with name := name, behind := .cell behind, ahead := .cell ahead }
    let res ← fillChildren cs nextPre
    pure (row :: res.1, .node d' res.2)

/-- The for i, child in enumerate(node.children) loop (lines 294-297):
is_last is i == children_count - 1, i.e. the rest of the list is empty. -/
def fillChildren (cs : List RTree) (pre : String) :
    Except String (List Row × List RTree) :=
  match cs with
  | [] => pure ([], [])
  | c :: rest => do
    let head ← fill_table c pre false rest.isEmpty
    let tail ← fillChildren rest pre
    pure (head.1 ++ tail.1, head.2 :: tail.2)

end

/-- The root ordering key (line 302): the tuple (len(x.children), x.name)
under Python tuple comparison. -/
def rootKeyLe (a b : RTree) : Prop :=
  childCount a < childCount b ∨ (childCount a = childCount b ∧ pyStrLe a.nameKey b.nameKey)

instance : DecidableRel rootKeyLe := fun a b => by unfold rootKeyLe; infer_instance

/-- roots.sort(key=lambda x: (len(x.children), x.name)) (line 302). -/
def sortRoots (roots : List RTree) : List RTree := roots.insertionSort rootKeyLe

/-- The fill loop over the sorted roots (lines 305-306): every root is
passed is_first=True, with the defaults prefix="" and is_last=True. -/
def fillRoots : List RTree → Except String (List Row × List RTree)
  | [] => pure ([], [])
  | r :: rest => do
    let head ← fill_table r "" true true
    let tail ← fillRoots rest
    pure (head.1 ++ tail.1, head.2 :: tail.2)

/-- The column widths (line 309): per column, the maximum cell length plus
two padding spaces. -/
def maxW (f : Row → Cell) (table : List Row) : Nat :=
  table.foldl (fun m r => max m ((f r).len + 2)) 0

structure Widths where
  w0 : Nat
  w1 : Nat
  w2 : Nat
  w3 : Nat
  w4 : Nat
  w5 : Nat
deriving DecidableEq

/-- All six column widths of a table. -/
def colWidths (table : List Row) : Widths :=
  { w0 := maxW Row.pipe table, w1 := maxW Row.name table, w2 := maxW Row.behind table,
    w3 := maxW Row.ahead table, w4 := maxW Row.title table, w5 := maxW Row.hash table }

/-- A run of n spaces; Python " " * n with a negative n gives the empty
string, and the truncating Nat subtraction used at the call sites models
exactly that clamping. -/
def spaces (n : Nat) : String := String.mk (List.replicate n ' ')

/-- The inner loop of the output generation (lines 313-327), unrolled over
the six cells of a row.  Cell 0 keeps the initial column_width = 0, so
min(0 - len, 0) never pads; cell 1 is conjoined with cell 0: width
w0 + w1 against the pipe and name lengths together; the remaining cells
pad to their own column width.  padding = min(width - length, width)
equals width - length clamped at zero since lengths are nonnegative. -/
def renderRow (w : Widths) (r : Row) : String :=
  r.pipe.pyStr
    ++ r.name.pyStr ++ spaces ((w.w0 + w.w1) - (r.name.len + r.pipe.len))
    ++ r.behind.pyStr ++ spaces (w.w2 - r.behind.len)
    ++ r.ahead.pyStr ++ spaces (w.w3 - r.ahead.len)
    ++ r.title.pyStr ++ spaces (w.w4 - r.title.len)
    ++ r.hash.pyStr ++ spaces (w.w5 - r.hash.len)
    ++ "\n"

/-- The output string accumulation (lines 312-327). -/
def renderTable (table : List Row) : String :=
  (table.map (renderRow (colWidths table))).foldl (fun a b => a ++ b) ""

/-- The table-building phase of branch_tree_string (lines 258-306). -/
def buildTable (bk : Backend) (fuel : Nat) : Except String (List Row) := do
  let nodes ← upstream_tree bk
  let rootTrees ← (nodes.filter fun p => p.2.root).mapM fun p => toRTree nodes fuel p.1
  let res ← fillRoots (sortRoots rootTrees)
  pure res.1

/-- branch_tree_string (lines 237-329). -/
def branch_tree_string (bk : Backend) (fuel : Nat) : Except String String := do
  let table ← buildTable bk fuel
  pure (renderTable table)

/-! ### Concrete backends used as evaluation inputs -/

/-- The example of the branch_tree_string docstring (lines 241-246) and of
the end-to-end example of the spec: master is a root with children
test_branch and test_zoo, test_branch has children fun_branch and
test_two, and master is checked out. -/
def bkEx : Backend :=
  { refPairs := [("master", ""), ("test_branch", "master"), ("fun_branch", "test_branch"),
                 ("test_two", "test_branch"), ("test_zoo", "master")],
    currentLines := ["master"],
    revListLines := fun _ _ => ["0"],
    hashLines := fun b => ["h" ++ b],
    titleLines := fun b => ["commit on " ++ b],
    rebaseOut := fun _ _ => "Successfully rebased" }

/-- A repository where rebasing B onto A conflicts: chain A <- B <- C with
A checked out. -/
def bkConf : Backend :=
  { refPairs := [("A", ""), ("B", "A"), ("C", "B")],
    currentLines := ["A"],
    revListLines := fun _ _ => ["0"],
    hashLines := fun b => ["h" ++ b],
    titleLines := fun b => ["t" ++ b],
    rebaseOut := fun _ c =>
      if c = "B" then "CONFLICT (content): merge conflict in x" else "ok" }

/-- The same chain A <- B <- C with every rebase succeeding. -/
def bk4 : Backend :=
  { bkConf with rebaseOut := fun _ _ => "Successfully rebased and updated." }

/-- A backend whose rev-list count query never returns an output line while
every other query behaves; beta has the local upstream alpha, so its
behind and ahead counts come from the empty rev-list output, not from a
missing upstream. -/
def bk8 : Backend :=
  { refPairs := [("alpha", ""), ("beta", "alpha")],
    currentLines := ["alpha"],
    revListLines := fun _ _ => [],
    hashLines := fun _ => ["hh"],
    titleLines := fun _ => ["tt"],
    rebaseOut := fun _ _ => "ok" }

/-- A backend whose current-branch query returns no output line. -/
def bk8e : Backend :=
  { refPairs := [("alpha", "")],
    currentLines := [],
    revListLines := fun _ _ => ["0"],
    hashLines := fun _ => ["hh"],
    titleLines := fun _ => ["tt"],
    rebaseOut := fun _ _ => "ok" }

/-! ### Auxiliary definitions used by the theorems -/

/-- Sequential composition of two renders of the same forest: the second
render receives the forest as the first one left it. -/
def secondRender (t : RTree) (pre : String) (isFirst isLast : Bool)
    (pre' : String) (isFirst' isLast' : Bool) : Except String (List Row × RTree) := do
  let first ← fill_table t pre isFirst isLast
  fill_table first.2 pre' isFirst' isLast'

/-- A one-node forest in build state: behind is the integer 0. -/
def tC7 : RTree :=
  .node { name := .s "alpha", behind := .int 0, ahead := .int 0, title := "t",
          hash := "h", active := false, root := true } []

/-- A distinct one-node forest for the witness of the amended C7. -/
def tC7w : RTree :=
  .node { name := .s "w7", behind := .pyNone, ahead := .pyNone, title := "",
          hash := "", active := false, root := true } []

/-- A one-node active forest in build state, behind 2 and ahead 1. -/
def tC9 : RTree :=
  .node { name := .s "beta", behind := .int 2, ahead := .int 1, title := "t2",
          hash := "h2", active := true, root := true } []

/-- A distinct one-node forest for the witness of the amended C9. -/
def tC9w : RTree :=
  .node { name := .s "w9", behind := .int 0, ahead := .int 0, title := "",
          hash := "", active := false, root := true } []

/-- The result pair of a first render, ok case. -/
def fill1 (t : RTree) : List Row × RTree :=
  (fill_table t "" true true).toOption.getD ([], t)

/-- Every rebase event of a trace had a conflict-free result text. -/
def conflictFreeRebases (evs : List FEvent) : Prop :=
  ∀ u c r, FEvent.rebaseCall u c r ∈ evs → pyIn "CONFLICT" r = false

/-- A trace that ended in exit(): some prefix of conflict-free work, then
the conflicting rebase, the print of its result, and the exit with status
0; nothing follows. -/
def haltShape (evs : List FEvent) : Prop :=
  ∃ pre u c r, pyIn "CONFLICT" r = true ∧
    evs = pre ++ [FEvent.rebaseCall u c r, FEvent.printResult r, FEvent.exited 0] ∧
    conflictFreeRebases pre

/-- The invariant of recursive_rebase results. -/
def RRSpec (res : List FEvent × Bool) : Prop :=
  (∀ b, FEvent.checkoutCall b ∉ res.1) ∧
  (res.2 = false → conflictFreeRebases res.1) ∧
  (res.2 = true → haltShape res.1)

/-- The repository of bkConf2: Q tracks P, P is checked out, and rebasing
Q onto P conflicts. -/
def bkConf2 : Backend :=
  { refPairs := [("P", ""), ("Q", "P")],
    currentLines := ["P"],
    revListLines := fun _ _ => ["1"],
    hashLines := fun _ => ["h"],
    titleLines := fun _ => ["t"],
    rebaseOut := fun _ _ => "CONFLICT (rename/delete)" }

/-- The flow trace of bkConf2. -/
def evs2 : List FEvent := (flow bkConf2 3).toOption.getD []

/-- The flow trace of bkConf. -/
def evs3 : List FEvent := (flow bkConf 4).toOption.getD []

/-- The A, B, C chain of bk4 as flow materializes it. -/
def t4 : FTree := .node "A" [.node "B" [.node "C" []]]

/-- The flow trace of bk4. -/
def evs4 : List FEvent := (flow bk4 4).toOption.getD []

/-- The children recorded for a node, as of a processed prefix of the
branch list: the branches whose normalized upstream names it, in
iteration order. -/
def childPairs (done : List (String × Option String)) (x : String) : List String :=
  (done.filter fun q => q.2 == some x).map Prod.fst

/-- The root mark a processed branch carries: true iff its normalized
upstream is absent or is not one of the dict keys. -/
def rootFlag (keys : List String) (u : Option String) : Bool :=
  match u with
  | none => true
  | some s => !(keys.contains s)

/-- The loop invariant of upstream_tree's building fold: after processing
the prefix done of the branch list, every key holds a node whose children
are exactly the processed branches naming it as upstream, whose metadata
fields are those of its own processing step if it was processed (still the
initial ones otherwise), and whose root mark follows rootFlag. -/
def BuildInv (bk : Backend) (active : String) (keys : List String)
    (done : List (String × Option String)) (m : List (String × NodeData)) : Prop :=
  m.map Prod.fst = keys ∧
  ∀ b, b ∈ keys → ∃ nd, m.lookup b = some nd ∧
    nd.name = b ∧
    nd.children = childPairs done b ∧
    (b ∉ done.map Prod.fst →
      nd.root = false ∧ nd.active = false ∧ nd.behind = some 0 ∧ nd.ahead = some 0 ∧
      nd.hash = "" ∧ nd.title = "") ∧
    (∀ u, (b, u) ∈ done →
      nd.root = rootFlag keys u ∧
      nd.active = (b == active) ∧
      commit_count_difference bk (some b) u = .ok nd.behind ∧
      commit_count_difference bk u (some b) = .ok nd.ahead ∧
      latest_commit_hash bk b = .ok nd.hash ∧
      latest_commit_title bk b = .ok nd.title)

/-- The node dict built from bkEx. -/
def nodesEx : List (String × NodeData) := (upstream_tree bkEx).toOption.getD []

/-- The node dict built from bk8. -/
def nodes8 : List (String × NodeData) := (upstream_tree bk8).toOption.getD []

/-- A childless render node named x. -/
def rtX : RTree :=
  .node { name := .s "x", behind := .pyNone, ahead := .pyNone, title := "",
          hash := "", active := false, root := true } []

/-- A render node named y with one child. -/
def rtY : RTree :=
  .node { name := .s "y", behind := .pyNone, ahead := .pyNone, title := "",
          hash := "", active := false, root := true } [rtX]

/-! ### C10: TermString length and column alignment -/

/-- Change only the formatting tags of the TermString cells of a row,
leaving every plain string and every underlying string untouched. -/
def restyleCell (g : List Fmt → List Fmt) : Cell → Cell
  | .s v => .s v
  | .t ts => .t { string := ts.string, formatting := g ts.formatting }

/-- restyleCell applied to all six cells of a row. -/
def restyleRow (g : List Fmt → List Fmt) (r : Row) : Row :=
  { pipe := restyleCell g r.pipe, name := restyleCell g r.name,
    behind := restyleCell g r.behind, ahead := restyleCell g r.ahead,
    title := restyleCell g r.title, hash := restyleCell g r.hash }

/-- The five padding amounts the output loop inserts for one row (the pipe
cell itself is never padded). -/
def rowPads (w : Widths) (r : Row) : List Nat :=
  [(w.w0 + w.w1) - (r.name.len + r.pipe.len), w.w2 - r.behind.len,
   w.w3 - r.ahead.len, w.w4 - r.title.len, w.w5 - r.hash.len]

theorem restyleCell_len (g : List Fmt → List Fmt) (c : Cell) :
    (restyleCell g c).len = c.len := by
  cases c <;> rfl

theorem maxW_restyle (g : List Fmt → List Fmt) (f : Row → Cell)
    (hf : ∀ r, f (restyleRow g r) = restyleCell g (f r)) (table : List Row) :
    maxW f (table.map (restyleRow g)) = maxW f table := by
  unfold maxW
  rw [List.foldl_map]
  congr 1
  funext m r
  rw [hf, restyleCell_len]

theorem colWidths_restyle (g : List Fmt → List Fmt) (table : List Row) :
    colWidths (table.map (restyleRow g)) = colWidths table := by
  unfold colWidths
  rw [maxW_restyle g Row.pipe (fun r => rfl), maxW_restyle g Row.name (fun r => rfl),
      maxW_restyle g Row.behind (fun r => rfl), maxW_restyle g Row.ahead (fun r => rfl),
      maxW_restyle g Row.title (fun r => rfl), maxW_restyle g Row.hash (fun r => rfl)]

/-- C10: the length of TermString(s, tags) is the length of the plain
string s for every tag sequence (ANSI escape codes are excluded by
TermString.__len__), and consequently the renderer's column widths and the
per-cell padding, both computed through that length, are invariant under
applying, changing or removing the terminal styling of any cells. -/
theorem c10_termstring_length :
    (∀ (s : String) (fmts : List Fmt),
        TermString.pyLen { string := s, formatting := fmts } = s.length) ∧
    (∀ (g : List Fmt → List Fmt) (table : List Row),
        colWidths (table.map (restyleRow g)) = colWidths table) ∧
    (∀ (g : List Fmt → List Fmt) (table : List Row) (r : Row),
        rowPads (colWidths (table.map (restyleRow g))) (restyleRow g r)
          = rowPads (colWidths table) r) := by
  refine ⟨fun s fmts => rfl, colWidths_restyle, fun g table r => ?_⟩
  rw [colWidths_restyle]
  unfold rowPads restyleRow
  simp only [restyleCell_len]

/-- C5, evaluation at the failing input: the pipe prefixes the code
produces for the docstring example repository bkEx.  The docstring of
branch_tree_string (lines 241-246) shows the intended rendering of exactly
this forest, with fun_branch and test_two prefixed by four spaces then a
pipe (the concatenated flags of both ancestors, as the claim states:
"    │   ├─ " and "    │   └─ ").  The code instead computes the next
prefix with a conditional expression whose precedence Python resolves as
(accumulated + four spaces) if is_last else bare pipe, so for the non-last
child test_branch the accumulated prefix is discarded and its children
come out as "│   ├─ " and "│   └─ ", contradicting the code's own
docstring.  Also visible: the single root row carries no branch character
because every root is rendered with is_first=True. -/
theorem c5_pipe_eval :
    (buildTable bkEx 6).map (List.map fun r => (Cell.plain r.pipe, Cell.plain r.name))
      = .ok [("", "master"), ("    ├─ ", "test_branch"), ("│   ├─ ", "fun_branch"),
             ("│   └─ ", "test_two"), ("    └─ ", "test_zoo")] := rfl

/-! ### C7 and C9: rendering mutates the forest -/

/-- Unfolding of a successful fill_table call at its root node: the
returned tree carries the mutated node data, in particular both count
fields have been overwritten with formatted cells. -/
theorem fill_table_ok_shape {d : RNodeData} {cs : List RTree} {pre : String}
    {isFirst isLast : Bool} {rows : List Row} {t' : RTree}
    (h : fill_table (.node d cs) pre isFirst isLast = .ok (rows, t')) :
    ∃ bC aC cs'',
      colorBehind d.behind = .ok bC ∧ colorAhead d.ahead = .ok aC ∧
      t' = .node { d with name := colorName d.active d.name,
                          behind := .cell bC, ahead := .cell aC } cs'' := by
  rw [fill_table] at h
  simp only [bind, Except.bind] at h
  cases hb : colorBehind d.behind with
  | error e => rw [hb] at h; exact absurd h (by simp)
  | ok bC =>
    rw [hb] at h
    cases ha : colorAhead d.ahead with
    | error e => rw [ha] at h; exact absurd h (by simp)
    | ok aC =>
      rw [ha] at h
      cases hc : fillChildren cs (if isLast then pre ++ "    " else "│   ") with
      | error e => rw [hc] at h; exact absurd h (by simp)
      | ok res =>
        rw [hc] at h
        simp only [pure, Except.pure, Except.ok.injEq, Prod.mk.injEq] at h
        exact ⟨bC, aC, res.2, rfl, rfl, h.2.symm⟩

/-- C7 amended: after any successful fill_table pass, the numeric count
fields of the visited nodes hold formatted strings, so a second fill_table
pass over the same (mutated) forest raises TypeError on the unary minus of
the behind field instead of reproducing the output: rendering the same
forest value twice does not yield byte-identical output. -/
theorem c7_amended (t : RTree) (pre : String) (isFirst isLast : Bool)
    (pre' : String) (isFirst' isLast' : Bool)
    (h : (fill_table t pre isFirst isLast).isOk = true) :
    secondRender t pre isFirst isLast pre' isFirst' isLast'
      = .error "TypeError: bad operand type for unary -" := by
  cases hft : fill_table t pre isFirst isLast with
  | error e => rw [hft] at h; exact absurd h (by simp [Except.isOk, Except.toBool])
  | ok res =>
    obtain ⟨rows, t'⟩ := res
    cases t with
    | node d cs =>
      obtain ⟨bC, aC, cs'', _, _, ht'⟩ := fill_table_ok_shape hft
      unfold secondRender
      rw [hft]
      simp only [bind, Except.bind]
      rw [ht']
      rw [fill_table]
      simp only [bind, Except.bind]
      rfl

/-- C7 counterexample: at the concrete forest tC7 the first render
succeeds, but rendering twice fails with a TypeError, so the two outputs
are not byte-identical (the second render produces no output at all). -/
theorem c7_counterexample :
    (fill_table tC7 "" true true).isOk = true ∧
    secondRender tC7 "" true true "" true true
      = .error "TypeError: bad operand type for unary -" := ⟨rfl, rfl⟩

theorem c7_witness :
    (fill_table tC7w "" true true).isOk = true ∧
    secondRender tC7w "" true true "x" false false
      = .error "TypeError: bad operand type for unary -" :=
  ⟨rfl, c7_amended tC7w "" true true "x" false false rfl⟩

/-- C9 amended: the forest is not read-only once constructed: a successful
fill_table pass overwrites the behind field of the node it starts from
(and of every node it visits) with a formatted cell, where the builder had
left an int or None; flow performs no such writes, it only reads names and
children. -/
theorem c9_amended (t : RTree) (pre : String) (isFirst isLast : Bool)
    (rows : List Row) (t' : RTree)
    (h : fill_table t pre isFirst isLast = .ok (rows, t')) :
    (∃ c, (rootData t').behind = NumField.cell c) ∧
    (∀ c, (rootData t).behind ≠ NumField.cell c) := by
  cases t with
  | node d cs =>
    obtain ⟨bC, aC, cs'', hbe, _, ht'⟩ := fill_table_ok_shape h
    constructor
    · exact ⟨bC, by rw [ht']; rfl⟩
    · intro c hc
      simp only [rootData] at hc
      rw [hc] at hbe
      exact absurd hbe (by simp [colorBehind])

/-- C9 counterexample: rendering the concrete forest tC9 changes the
behind field of its node from the integer 2 to the red-styled string cell
-2, so a field of the forest is modified by a subsequent operation. -/
theorem c9_counterexample :
    ((fill_table tC9 "" true true).toOption.map fun p => (rootData p.2).behind)
        = some (NumField.cell (.t { string := "-2", formatting := [Fmt.RED] })) ∧
    (rootData tC9).behind = NumField.int 2 := ⟨rfl, rfl⟩

/-! ### Flow trace machinery for C2, C3 and C4 -/

theorem conflictFreeRebases_append {a b : List FEvent}
    (ha : conflictFreeRebases a) (hb : conflictFreeRebases b) :
    conflictFreeRebases (a ++ b) := by
  intro u c r hm
  rcases List.mem_append.mp hm with h | h
  · exact ha u c r h
  · exact hb u c r h

mutual

theorem recursive_rebase_spec (reb : String → String → String) (t : FTree) :
    RRSpec (recursive_rebase reb t) := by
  cases t with
  | node name cs =>
    rw [recursive_rebase]
    exact rebaseChildren_spec reb name cs cs

theorem rebaseChildren_spec (reb : String → String → String) (nodeName : String)
    (full cs : List FTree) : RRSpec (rebaseChildren reb nodeName full cs) := by
  cases cs with
  | nil =>
    refine ⟨by simp [rebaseChildren], fun _ => by simp [rebaseChildren, conflictFreeRebases],
      fun h => by simp [rebaseChildren] at h⟩
  | cons c rest =>
    rw [rebaseChildren]
    by_cases hconf : pyIn "CONFLICT" (reb nodeName c.name) = true
    · simp only [hconf, if_true]
      refine ⟨by simp, fun h => by simp at h, fun _ => ?_⟩
      exact ⟨[FEvent.progress c.name], nodeName, c.name, reb nodeName c.name, hconf,
        by simp, by simp [conflictFreeRebases]⟩
    · rw [Bool.not_eq_true] at hconf
      simp only [hconf, Bool.false_eq_true, if_false]
      have hsub : RRSpec (if full.isEmpty then (([] : List FEvent), false)
          else recursive_rebase reb c) := by
        by_cases hf : full.isEmpty
        · simp only [hf, if_true]
          exact ⟨by simp, fun _ => by simp [conflictFreeRebases], fun h => by simp at h⟩
        · simp only [hf, if_false]
          exact recursive_rebase_spec reb c
      set sub := if full.isEmpty then (([] : List FEvent), false)
        else recursive_rebase reb c with hsubdef
      have hevs0 : conflictFreeRebases
          [FEvent.progress c.name, FEvent.rebaseCall nodeName c.name (reb nodeName c.name)] := by
        intro u' c' r' hm
        simp only [List.mem_cons, List.mem_singleton, List.not_mem_nil, or_false] at hm
        rcases hm with h | h
        · exact absurd h (by simp)
        · cases h; exact hconf
      by_cases hs2 : sub.2 = true
      · simp only [hs2, if_true]
        obtain ⟨pre, u₀, c₀, r₀, hc₀, hdec, hcf⟩ := hsub.2.2 hs2
        refine ⟨?_, fun h => by simp at h, fun _ => ?_⟩
        · intro b hb
          rcases List.mem_append.mp hb with h | h
          · exact absurd h (by simp)
          · exact hsub.1 b h
        · refine ⟨_ ++ pre, u₀, c₀, r₀, hc₀, ?_, conflictFreeRebases_append hevs0 hcf⟩
          rw [List.append_assoc, ← hdec]
      · rw [Bool.not_eq_true] at hs2
        simp only [hs2, Bool.false_eq_true, if_false]
        have hrest := rebaseChildren_spec reb nodeName full rest
        have hsubcf := hsub.2.1 hs2
        refine ⟨?_, fun h => ?_, fun h => ?_⟩
        · intro b hb
          rcases List.mem_append.mp hb with h | h
          · rcases List.mem_append.mp h with h' | h'
            · exact absurd h' (by simp)
            · exact hsub.1 b h'
          · exact hrest.1 b h
        · exact conflictFreeRebases_append (conflictFreeRebases_append hevs0 hsubcf)
            (hrest.2.1 h)
        · obtain ⟨pre, u₀, c₀, r₀, hc₀, hdec, hcf⟩ := hrest.2.2 h
          refine ⟨_ ++ sub.1 ++ pre, u₀, c₀, r₀, hc₀, ?_,
            conflictFreeRebases_append (conflictFreeRebases_append hevs0 hsubcf) hcf⟩
          rw [List.append_assoc, List.append_assoc, ← hdec, ← List.append_assoc]

end

/-- Case analysis of a successful flow run: the trace is either the halted
traversal trace alone, or the full traversal trace followed by the blank
line and the checkout back to the start branch. -/
theorem flow_cases (bk : Backend) (fuel : Nat) (evs : List FEvent)
    (hok : flow bk fuel = .ok evs) :
    ∃ parent t, flowStart bk fuel = .ok (parent, t) ∧
      (((recursive_rebase bk.rebaseOut t).2 = true ∧
          evs = (recursive_rebase bk.rebaseOut t).1) ∨
       ((recursive_rebase bk.rebaseOut t).2 = false ∧
          evs = (recursive_rebase bk.rebaseOut t).1
            ++ [FEvent.newline, FEvent.checkoutCall parent])) := by
  unfold flow at hok
  cases hfs : flowStart bk fuel with
  | error e => rw [hfs] at hok; exact absurd hok (by simp [bind, Except.bind])
  | ok p =>
    obtain ⟨parent, t⟩ := p
    rw [hfs] at hok
    simp only [bind, Except.bind] at hok
    refine ⟨parent, t, rfl, ?_⟩
    by_cases h2 : (recursive_rebase bk.rebaseOut t).2 = true
    · rw [if_pos h2] at hok
      simp only [pure, Except.pure, Except.ok.injEq] at hok
      exact Or.inl ⟨h2, hok.symm⟩
    · rw [Bool.not_eq_true] at h2
      rw [h2] at hok
      simp only [Bool.false_eq_true, if_false, pure, Except.pure, Except.ok.injEq] at hok
      exact Or.inr ⟨h2, hok.symm⟩

/-- C2: if a rebase issued by flow came back with CONFLICT in its result
text, the trace ends right after printing that result: the conflicting
rebase is the last rebase call (so after a conflicting rebase(A,B) no
rebase(B,C) is ever issued), every earlier rebase was conflict-free, and
no checkout event occurs anywhere in the trace. -/
theorem c2_conflict_short_circuit (bk : Backend) (fuel : Nat) (evs : List FEvent)
    (hok : flow bk fuel = .ok evs) (u c r : String)
    (hmem : FEvent.rebaseCall u c r ∈ evs) (hconf : pyIn "CONFLICT" r = true) :
    (∃ pre, evs = pre ++ [FEvent.rebaseCall u c r, FEvent.printResult r, FEvent.exited 0] ∧
       conflictFreeRebases pre) ∧
    (∀ b, FEvent.checkoutCall b ∉ evs) := by
  obtain ⟨parent, t, hfs, hcase⟩ := flow_cases bk fuel evs hok
  have hspec := recursive_rebase_spec bk.rebaseOut t
  rcases hcase with ⟨hh, hevs⟩ | ⟨hh, hevs⟩
  · obtain ⟨pre, u₀, c₀, r₀, hc₀, hdec, hcf⟩ := hspec.2.2 hh
    rw [hevs, hdec] at hmem
    have hnotpre : FEvent.rebaseCall u c r ∉ pre := fun hp =>
      absurd hconf (by rw [hcf u c r hp]; simp)
    have heq : u = u₀ ∧ c = c₀ ∧ r = r₀ := by
      rcases List.mem_append.mp hmem with h | h
      · exact absurd h hnotpre
      · simp only [List.mem_cons, List.not_mem_nil, or_false] at h
        rcases h with h | h | h
        · exact ⟨(FEvent.rebaseCall.injEq _ _ _ _ _ _).mp h |>.1,
            ((FEvent.rebaseCall.injEq _ _ _ _ _ _).mp h).2.1,
            ((FEvent.rebaseCall.injEq _ _ _ _ _ _).mp h).2.2⟩
        · exact absurd h (by simp)
        · exact absurd h (by simp)
    obtain ⟨hu, hc, hr⟩ := heq
    subst hu; subst hc; subst hr
    refine ⟨⟨pre, by rw [hevs, hdec], hcf⟩, fun b hb => hspec.1 b (hevs ▸ hb)⟩
  · have hcf := hspec.2.1 hh
    rw [hevs] at hmem
    rcases List.mem_append.mp hmem with h | h
    · exact absurd hconf (by rw [hcf u c r h]; simp)
    · exact absurd h (by simp)

theorem c2_witness :
    flow bkConf2 3 = .ok evs2 ∧
    FEvent.rebaseCall "P" "Q" "CONFLICT (rename/delete)" ∈ evs2 ∧
    pyIn "CONFLICT" "CONFLICT (rename/delete)" = true ∧
    (∃ pre, evs2 = pre ++ [FEvent.rebaseCall "P" "Q" "CONFLICT (rename/delete)",
        FEvent.printResult "CONFLICT (rename/delete)", FEvent.exited 0] ∧
       conflictFreeRebases pre) ∧
    (∀ b, FEvent.checkoutCall b ∉ evs2) := by
  have h := c2_conflict_short_circuit bkConf2 3 evs2 rfl "P" "Q"
    "CONFLICT (rename/delete)" (by decide) rfl
  exact ⟨rfl, by decide, rfl, h.1, h.2⟩

/-- C3 counterexample: the complete flow trace of the conflicting
repository bkConf.  The conflict output is printed and the process then
terminates through Python's exit(), i.e. SystemExit(None), whose exit
status is 0 — not the non-zero error status the claim requires. -/
theorem c3_counterexample :
    flow bkConf 4 = .ok
      [FEvent.progress "B",
       FEvent.rebaseCall "A" "B" "CONFLICT (content): merge conflict in x",
       FEvent.printResult "CONFLICT (content): merge conflict in x",
       FEvent.exited 0] := rfl

/-- C3 amended: whenever a rebase issued by flow produces output containing
the conflict marker, the process terminates after displaying the conflict
output, but with exit status 0 (Python's exit() with no argument), not a
non-zero one. -/
theorem c3_amended (bk : Backend) (fuel : Nat) (evs : List FEvent)
    (hok : flow bk fuel = .ok evs) (u c r : String)
    (hmem : FEvent.rebaseCall u c r ∈ evs) (hconf : pyIn "CONFLICT" r = true) :
    ∃ pre, evs = pre ++ [FEvent.printResult r, FEvent.exited 0] := by
  obtain ⟨parent, t, hfs, hcase⟩ := flow_cases bk fuel evs hok
  have hspec := recursive_rebase_spec bk.rebaseOut t
  rcases hcase with ⟨hh, hevs⟩ | ⟨hh, hevs⟩
  · obtain ⟨pre, u₀, c₀, r₀, hc₀, hdec, hcf⟩ := hspec.2.2 hh
    rw [hevs, hdec] at hmem
    have hr : r = r₀ := by
      rcases List.mem_append.mp hmem with h | h
      · exact absurd hconf (by rw [hcf u c r h]; simp)
      · simp only [List.mem_cons, List.not_mem_nil, or_false] at h
        rcases h with h | h | h
        · exact ((FEvent.rebaseCall.injEq _ _ _ _ _ _).mp h).2.2
        · exact absurd h (by simp)
        · exact absurd h (by simp)
    subst hr
    exact ⟨pre ++ [FEvent.rebaseCall u₀ c₀ r], by rw [hevs, hdec]; simp⟩
  · have hcf := hspec.2.1 hh
    rw [hevs] at hmem
    rcases List.mem_append.mp hmem with h | h
    · exact absurd hconf (by rw [hcf u c r h]; simp)
    · exact absurd h (by simp)

theorem c3_witness :
    flow bkConf 4 = .ok evs3 ∧
    (∃ pre, evs3 = pre ++ [FEvent.printResult "CONFLICT (content): merge conflict in x",
        FEvent.exited 0]) :=
  ⟨rfl, c3_amended bkConf 4 evs3 rfl "A" "B" "CONFLICT (content): merge conflict in x"
    (by decide) rfl⟩

/-! ### C4: depth-first pre-order of the rebase calls -/

theorem rebasePairs_append (a b : List FEvent) :
    rebasePairs (a ++ b) = rebasePairs a ++ rebasePairs b := by
  simp [rebasePairs, List.filterMap_append]

theorem prefix_cons {α : Type} {a : α} {l₁ l₂ : List α} (h : l₁ <+: l₂) :
    (a :: l₁) <+: (a :: l₂) := by
  obtain ⟨t, ht⟩ := h
  exact ⟨t, by rw [List.cons_append, ht]⟩

theorem prefix_append_left {α : Type} (l : List α) {l₁ l₂ : List α} (h : l₁ <+: l₂) :
    (l ++ l₁) <+: (l ++ l₂) := by
  obtain ⟨t, ht⟩ := h
  exact ⟨t, by rw [List.append_assoc, ht]⟩

mutual

theorem rr_pairs (reb : String → String → String) (t : FTree) :
    ((recursive_rebase reb t).2 = false →
      rebasePairs (recursive_rebase reb t).1 = preorderPairs t) ∧
    ((recursive_rebase reb t).2 = true →
      rebasePairs (recursive_rebase reb t).1 <+: preorderPairs t) := by
  cases t with
  | node name cs =>
    rw [recursive_rebase, preorderPairs]
    exact rc_pairs reb name cs cs (by cases cs <;> simp [List.isEmpty])

theorem rc_pairs (reb : String → String → String) (nodeName : String)
    (full cs : List FTree) (hfull : full.isEmpty = false ∨ cs = []) :
    ((rebaseChildren reb nodeName full cs).2 = false →
      rebasePairs (rebaseChildren reb nodeName full cs).1 = preorderPairsL nodeName cs) ∧
    ((rebaseChildren reb nodeName full cs).2 = true →
      rebasePairs (rebaseChildren reb nodeName full cs).1 <+: preorderPairsL nodeName cs) := by
  cases cs with
  | nil =>
    exact ⟨fun _ => rfl, fun h => absurd h (by simp [rebaseChildren])⟩
  | cons c rest =>
    rw [rebaseChildren]
    have hf : full.isEmpty = false := by
      rcases hfull with h | h
      · exact h
      · exact absurd h (by simp)
    by_cases hconf : pyIn "CONFLICT" (reb nodeName c.name) = true
    · simp only [hconf, if_true]
      refine ⟨fun h => absurd h (by simp), fun _ => ?_⟩
      rw [preorderPairsL]
      refine ⟨preorderPairs c ++ preorderPairsL nodeName rest, ?_⟩
      simp [rebasePairs]
    · rw [Bool.not_eq_true] at hconf
      simp only [hconf, Bool.false_eq_true, if_false, hf]
      have hsub := rr_pairs reb c
      by_cases hs2 : (recursive_rebase reb c).2 = true
      · simp only [hs2, if_true]
        refine ⟨fun h => absurd h (by simp), fun _ => ?_⟩
        have hpre := hsub.2 hs2
        rw [preorderPairsL, rebasePairs_append]
        have hev : rebasePairs [FEvent.progress c.name,
            FEvent.rebaseCall nodeName c.name (reb nodeName c.name)]
            = [(nodeName, c.name)] := by
          simp [rebasePairs]
        rw [hev]
        exact prefix_cons
          (hpre.trans (List.prefix_append (preorderPairs c) (preorderPairsL nodeName rest)))
      · rw [Bool.not_eq_true] at hs2
        simp only [hs2, Bool.false_eq_true, if_false]
        have hrest := rc_pairs reb nodeName full rest (Or.inl hf)
        have heq := hsub.1 hs2
        have hev : rebasePairs [FEvent.progress c.name,
            FEvent.rebaseCall nodeName c.name (reb nodeName c.name)]
            = [(nodeName, c.name)] := by
          simp [rebasePairs]
        constructor
        · intro h
          rw [preorderPairsL, rebasePairs_append, rebasePairs_append, hev, heq,
            hrest.1 h]
          simp
        · intro h
          rw [preorderPairsL, rebasePairs_append, rebasePairs_append, hev, heq]
          have : ([(nodeName, c.name)] ++ preorderPairs c)
              ++ rebasePairs (rebaseChildren reb nodeName full rest).1
              <+: ([(nodeName, c.name)] ++ preorderPairs c) ++ preorderPairsL nodeName rest :=
            prefix_append_left _ (hrest.2 h)
          simpa [List.append_assoc] using this

end

mutual

theorem recursive_rebase_noconf (reb : String → String → String)
    (hnc : ∀ u c, pyIn "CONFLICT" (reb u c) = false) (t : FTree) :
    (recursive_rebase reb t).2 = false ∧
    rebasePairs (recursive_rebase reb t).1 = preorderPairs t := by
  cases t with
  | node name cs =>
    rw [recursive_rebase, preorderPairs]
    exact rebaseChildren_noconf reb hnc name cs cs
      (by cases cs <;> simp [List.isEmpty])

theorem rebaseChildren_noconf (reb : String → String → String)
    (hnc : ∀ u c, pyIn "CONFLICT" (reb u c) = false) (nodeName : String)
    (full cs : List FTree) (hfull : full.isEmpty = false ∨ cs = []) :
    (rebaseChildren reb nodeName full cs).2 = false ∧
    rebasePairs (rebaseChildren reb nodeName full cs).1 = preorderPairsL nodeName cs := by
  cases cs with
  | nil => exact ⟨rfl, rfl⟩
  | cons c rest =>
    rw [rebaseChildren]
    have hf : full.isEmpty = false := by
      rcases hfull with h | h
      · exact h
      · exact absurd h (by simp)
    simp only [hnc nodeName c.name, Bool.false_eq_true, if_false, hf]
    have hsub := recursive_rebase_noconf reb hnc c
    have hrest := rebaseChildren_noconf reb hnc nodeName full rest (Or.inl hf)
    simp only [hsub.1, Bool.false_eq_true, if_false]
    refine ⟨hrest.1, ?_⟩
    rw [preorderPairsL]
    simp only [rebasePairs, List.filterMap_append] at *
    rw [hsub.2, hrest.2]
    simp [List.filterMap]

end

/-- Every direct child edge is directly followed by the whole block of its
child's subtree edges inside the pre-order edge list. -/
theorem preorder_block (n : String) (cs : List FTree) (c : FTree) (hc : c ∈ cs) :
    ((n, c.name) :: preorderPairs c) <:+: preorderPairsL n cs := by
  induction cs with
  | nil => exact absurd hc (by simp)
  | cons c₀ rest ih =>
    rw [preorderPairsL]
    rcases List.mem_cons.mp hc with h | h
    · subst h
      exact ⟨[], preorderPairsL n rest, by simp⟩
    · exact (ih h).trans ⟨(n, c₀.name) :: preorderPairs c₀, [], by simp⟩

mutual

theorem preorder_infix (t s : FTree) (hs : s ∈ subtrees t) (c : FTree)
    (hc : c ∈ s.children) :
    ((s.name, c.name) :: preorderPairs c) <:+: preorderPairs t := by
  cases t with
  | node tn tcs =>
    rw [subtrees] at hs
    rcases List.mem_cons.mp hs with h | h
    · subst h
      rw [preorderPairs]
      exact preorder_block tn tcs c hc
    · rw [preorderPairs]
      exact preorder_infix_l tn tcs s h c hc

theorem preorder_infix_l (n : String) (cs : List FTree) (s : FTree)
    (hs : s ∈ subtreesL cs) (c : FTree) (hc : c ∈ s.children) :
    ((s.name, c.name) :: preorderPairs c) <:+: preorderPairsL n cs := by
  cases cs with
  | nil => rw [subtreesL] at hs; exact absurd hs (by simp)
  | cons c₀ rest =>
    rw [subtreesL] at hs
    rw [preorderPairsL]
    rcases List.mem_append.mp hs with h | h
    · have h1 := preorder_infix c₀ s h c hc
      have h2 : preorderPairs c₀ <:+: ((n, c₀.name) :: preorderPairs c₀)
          ++ preorderPairsL n rest :=
        ⟨[(n, c₀.name)], preorderPairsL n rest, by simp⟩
      exact h1.trans h2
    · have h1 := preorder_infix_l n rest s h c hc
      exact h1.trans ⟨(n, c₀.name) :: preorderPairs c₀, [], by simp⟩

end

/-- C4: the rebase calls flow issues, in order, always form a leading
segment of the parent-child edges of the active branch's subtree in
depth-first pre-order (so rebase(A,B) comes strictly before rebase(B,C)
and every child is rebased before any rebase inside that child's own
subtree, never the reverse); and when no rebase result conflicts, they
are exactly that pre-order edge list, each child's edge immediately
followed by the contiguous block of its own subtree's edges. -/
theorem c4_flow_preorder (bk : Backend) (fuel : Nat) (parent : String) (t : FTree)
    (evs : List FEvent)
    (hstart : flowStart bk fuel = .ok (parent, t))
    (hok : flow bk fuel = .ok evs) :
    (rebasePairs evs <+: preorderPairs t) ∧
    ((∀ u c, pyIn "CONFLICT" (bk.rebaseOut u c) = false) →
      rebasePairs evs = preorderPairs t ∧
      (∀ s ∈ subtrees t, ∀ c ∈ s.children,
          ((s.name, c.name) :: preorderPairs c) <:+: rebasePairs evs)) := by
  obtain ⟨parent', t', hfs, hcase⟩ := flow_cases bk fuel evs hok
  rw [hstart] at hfs
  injection hfs with hpair
  injection hpair with hp ht
  subst hp; subst ht
  have hpairsOf := rr_pairs bk.rebaseOut t
  constructor
  · rcases hcase with ⟨hh, hevs⟩ | ⟨hh, hevs⟩
    · rw [hevs]
      exact hpairsOf.2 hh
    · rw [hevs, rebasePairs_append, hpairsOf.1 hh]
      simp [rebasePairs]
  · intro hnc
    have hnoconf := recursive_rebase_noconf bk.rebaseOut hnc t
    rcases hcase with ⟨hh, _⟩ | ⟨_, hevs⟩
    · rw [hnoconf.1] at hh
      exact absurd hh (by simp)
    · have hpairs : rebasePairs evs = preorderPairs t := by
        rw [hevs, rebasePairs_append, hnoconf.2]
        simp [rebasePairs]
      refine ⟨hpairs, fun s hs c hc => ?_⟩
      rw [hpairs]
      exact preorder_infix t s hs c hc

theorem c4_witness :
    flowStart bk4 4 = .ok ("A", t4) ∧ flow bk4 4 = .ok evs4 ∧
    rebasePairs evs4 <+: preorderPairs t4 ∧
    rebasePairs evs4 = [("A", "B"), ("B", "C")] ∧
    (("B", "C") :: preorderPairs (.node "C" [])) <:+: rebasePairs evs4 := by
  have h := c4_flow_preorder bk4 4 "A" t4 evs4 rfl rfl
  refine ⟨rfl, rfl, h.1, rfl, ?_⟩
  have hs : FTree.node "B" [FTree.node "C" []] ∈ subtrees t4 := by
    simp [t4, subtrees, subtreesL]
  have hc : FTree.node "C" [] ∈ (FTree.node "B" [FTree.node "C" []]).children := by
    simp [FTree.children]
  exact (h.2 (fun u c => rfl)).2 (FTree.node "B" [FTree.node "C" []]) hs
    (FTree.node "C" []) hc

theorem c9_witness :
    fill_table tC9w "" true true = .ok (fill1 tC9w) ∧
    (∃ c, (rootData (fill1 tC9w).2).behind = NumField.cell c) ∧
    (∀ c, (rootData tC9w).behind ≠ NumField.cell c) :=
  ⟨rfl, (c9_amended tC9w "" true true (fill1 tC9w).1 (fill1 tC9w).2 rfl).1,
        (c9_amended tC9w "" true true (fill1 tC9w).1 (fill1 tC9w).2 rfl).2⟩

/-! ### Order facts about the Python comparisons -/

theorem chLe_cons_iff (a b : Char) (as bs : List Char) :
    chLe (a :: as) (b :: bs) = true ↔
      (a.toNat < b.toNat ∨ (a.toNat = b.toNat ∧ chLe as bs = true)) := by
  rw [chLe]
  split_ifs with h1 h2
  · simp [h1]
  · simp only [Bool.false_eq_true, false_iff]
    intro hcontra
    rcases hcontra with h | ⟨he, _⟩
    · omega
    · omega
  · have he : a.toNat = b.toNat := by omega
    simp [he, h1]

theorem chLe_total (x y : List Char) : chLe x y = true ∨ chLe y x = true := by
  induction x generalizing y with
  | nil => exact Or.inl rfl
  | cons a as ih =>
    cases y with
    | nil => exact Or.inr rfl
    | cons b bs =>
      rcases Nat.lt_trichotomy a.toNat b.toNat with h | h | h
      · exact Or.inl ((chLe_cons_iff a b as bs).mpr (Or.inl h))
      · rcases ih bs with h' | h'
        · exact Or.inl ((chLe_cons_iff a b as bs).mpr (Or.inr ⟨h, h'⟩))
        · exact Or.inr ((chLe_cons_iff b a bs as).mpr (Or.inr ⟨h.symm, h'⟩))
      · exact Or.inr ((chLe_cons_iff b a bs as).mpr (Or.inl h))

theorem chLe_trans {x y z : List Char} (h1 : chLe x y = true) (h2 : chLe y z = true) :
    chLe x z = true := by
  induction x generalizing y z with
  | nil => rfl
  | cons a as ih =>
    cases y with
    | nil => exact absurd h1 (by rw [chLe]; simp)
    | cons b bs =>
      cases z with
      | nil => exact absurd h2 (by rw [chLe]; simp)
      | cons c cs =>
        rcases (chLe_cons_iff a b as bs).mp h1 with hab | ⟨hab, hab'⟩ <;>
          rcases (chLe_cons_iff b c bs cs).mp h2 with hbc | ⟨hbc, hbc'⟩
        · exact (chLe_cons_iff a c as cs).mpr (Or.inl (hab.trans hbc))
        · exact (chLe_cons_iff a c as cs).mpr (Or.inl (hbc ▸ hab))
        · exact (chLe_cons_iff a c as cs).mpr (Or.inl (hab ▸ hbc))
        · exact (chLe_cons_iff a c as cs).mpr (Or.inr ⟨hab.trans hbc, ih hab' hbc'⟩)

theorem pyStrLe_total (a b : String) : pyStrLe a b ∨ pyStrLe b a :=
  chLe_total a.data b.data

theorem pyStrLe_trans {a b c : String} (h1 : pyStrLe a b) (h2 : pyStrLe b c) :
    pyStrLe a c :=
  chLe_trans h1 h2

theorem rootKeyLe_total (a b : RTree) : rootKeyLe a b ∨ rootKeyLe b a := by
  unfold rootKeyLe
  rcases Nat.lt_trichotomy (childCount a) (childCount b) with h | h | h
  · exact Or.inl (Or.inl h)
  · rcases pyStrLe_total a.nameKey b.nameKey with h' | h'
    · exact Or.inl (Or.inr ⟨h, h'⟩)
    · exact Or.inr (Or.inr ⟨h.symm, h'⟩)
  · exact Or.inr (Or.inl h)

theorem rootKeyLe_trans {a b c : RTree} (h1 : rootKeyLe a b) (h2 : rootKeyLe b c) :
    rootKeyLe a c := by
  unfold rootKeyLe at *
  rcases h1 with h1 | ⟨e1, l1⟩ <;> rcases h2 with h2 | ⟨e2, l2⟩
  · exact Or.inl (h1.trans h2)
  · exact Or.inl (e2 ▸ h1)
  · exact Or.inl (e1 ▸ h2)
  · exact Or.inr ⟨e1.trans e2, pyStrLe_trans l1 l2⟩

/-! ### Association list lemmas for the node dict -/

theorem updateNode_keys (m : List (String × NodeData)) (k : String)
    (f : NodeData → NodeData) : (updateNode m k f).map Prod.fst = m.map Prod.fst := by
  unfold updateNode
  induction m with
  | nil => rfl
  | cons p rest ih =>
    by_cases h : p.1 = k <;> simp [h, ih]

theorem lookup_cons_self (k : String) (v : NodeData) (rest : List (String × NodeData)) :
    List.lookup k ((k, v) :: rest) = some v := by
  simp [List.lookup]

theorem lookup_cons_ne (k a : String) (v : NodeData) (rest : List (String × NodeData))
    (h : k ≠ a) : List.lookup k ((a, v) :: rest) = List.lookup k rest := by
  have hne : (k == a) = false := beq_eq_false_iff_ne.mpr h
  simp [List.lookup, hne]

theorem updateNode_cons (p : String × NodeData) (rest : List (String × NodeData))
    (k : String) (f : NodeData → NodeData) :
    updateNode (p :: rest) k f
      = (if p.1 = k then (p.1, f p.2) else p) :: updateNode rest k f := rfl

theorem lookup_updateNode_self (m : List (String × NodeData)) (k : String)
    (f : NodeData → NodeData) : (updateNode m k f).lookup k = (m.lookup k).map f := by
  induction m with
  | nil => rfl
  | cons p rest ih =>
    obtain ⟨a, v⟩ := p
    rw [updateNode_cons]
    by_cases h : a = k
    · subst h
      rw [if_pos rfl]
      rw [lookup_cons_self, lookup_cons_self]
      rfl
    · rw [if_neg h, lookup_cons_ne _ _ _ _ (fun he => h he.symm),
        lookup_cons_ne _ _ _ _ (fun he => h he.symm), ih]

theorem lookup_updateNode_ne (m : List (String × NodeData)) (k k' : String)
    (f : NodeData → NodeData) (h : k' ≠ k) :
    (updateNode m k f).lookup k' = m.lookup k' := by
  induction m with
  | nil => rfl
  | cons p rest ih =>
    obtain ⟨a, v⟩ := p
    rw [updateNode_cons]
    by_cases ha : a = k
    · subst ha
      rw [if_pos rfl, lookup_cons_ne _ _ _ _ h, lookup_cons_ne _ _ _ _ h, ih]
    · rw [if_neg ha]
      by_cases hk' : k' = a
      · subst hk'
        rw [lookup_cons_self, lookup_cons_self]
      · rw [lookup_cons_ne _ _ _ _ hk', lookup_cons_ne _ _ _ _ hk', ih]

theorem lookup_none_of_not_mem (m : List (String × NodeData)) (k : String)
    (h : k ∉ m.map Prod.fst) : m.lookup k = none := by
  induction m with
  | nil => rfl
  | cons p rest ih =>
    simp only [List.map_cons, List.mem_cons, not_or] at h
    rw [show p = (p.1, p.2) from rfl, lookup_cons_ne _ _ _ _ h.1]
    exact ih h.2

theorem lookup_map_entry (m : List (String × NodeData)) (g : NodeData → NodeData)
    (k : String) :
    (m.map fun p => (p.1, g p.2)).lookup k = (m.lookup k).map g := by
  induction m with
  | nil => rfl
  | cons p rest ih =>
    obtain ⟨a, v⟩ := p
    simp only [List.map_cons]
    by_cases h : k = a
    · subst h
      rw [lookup_cons_self, lookup_cons_self]
      rfl
    · rw [lookup_cons_ne _ _ _ _ h, lookup_cons_ne _ _ _ _ h, ih]

theorem lookup_map_init (l : List (String × Option String)) (b : String)
    (hb : b ∈ l.map Prod.fst) :
    (l.map fun p => (p.1, initNode p.1)).lookup b = some (initNode b) := by
  induction l with
  | nil => exact absurd hb (by simp)
  | cons p rest ih =>
    simp only [List.map_cons]
    by_cases h : b = p.1
    · subst h
      rw [lookup_cons_self]
    · rw [lookup_cons_ne _ _ _ _ h]
      simp only [List.map_cons, List.mem_cons] at hb
      rcases hb with hb | hb
      · exact absurd hb h
      · exact ih hb

theorem lookup_of_mem_nodup {m : List (String × NodeData)}
    (hnd : (m.map Prod.fst).Nodup) {q : String × NodeData} (hq : q ∈ m) :
    m.lookup q.1 = some q.2 := by
  induction m with
  | nil => exact absurd hq (by simp)
  | cons p rest ih =>
    simp only [List.map_cons, List.nodup_cons] at hnd
    rcases List.mem_cons.mp hq with h | h
    · subst h
      exact lookup_cons_self _ _ _
    · have hne : q.1 ≠ p.1 := by
        intro he
        exact hnd.1 (he ▸ List.mem_map_of_mem Prod.fst h)
      rw [show p = (p.1, p.2) from rfl, lookup_cons_ne _ _ _ _ hne]
      exact ih hnd.2 h

theorem lookup_mem_of_some {m : List (String × NodeData)} {k : String} {nd : NodeData}
    (h : m.lookup k = some nd) : k ∈ m.map Prod.fst := by
  induction m with
  | nil => exact absurd h (by simp [List.lookup])
  | cons p rest ih =>
    by_cases hk : k = p.1
    · simp [hk]
    · rw [show p = (p.1, p.2) from rfl, lookup_cons_ne _ _ _ _ hk] at h
      exact List.mem_cons.mpr (Or.inr (ih h))

/-! ### childPairs lemmas -/

theorem childPairs_append_one (done : List (String × Option String)) (b : String)
    (u : Option String) (x : String) :
    childPairs (done ++ [(b, u)]) x
      = childPairs done x ++ if u = some x then [b] else [] := by
  unfold childPairs
  rw [List.filter_append, List.map_append]
  congr 1
  by_cases h : u = some x
  · simp [List.filter, h]
  · have hne : ((u == some x) : Bool) = false := beq_eq_false_iff_ne.mpr h
    simp [List.filter, hne]
    exact h

theorem mem_childPairs (l : List (String × Option String)) (c x : String) :
    c ∈ childPairs l x ↔ (c, some x) ∈ l := by
  unfold childPairs
  constructor
  · intro h
    obtain ⟨q, hq, hq1⟩ := List.mem_map.mp h
    obtain ⟨hql, hq2⟩ := List.mem_filter.mp hq
    have : q = (c, some x) := by
      obtain ⟨q1, q2⟩ := q
      simp only at hq1
      subst hq1
      simp only [beq_iff_eq] at hq2
      rw [hq2]
    exact this ▸ hql
  · intro h
    exact List.mem_map.mpr ⟨(c, some x), List.mem_filter.mpr ⟨h, by simp⟩, rfl⟩

theorem childPairs_sublist_keys (l : List (String × Option String)) (x : String) :
    (childPairs l x).Sublist (l.map Prod.fst) :=
  List.Sublist.map Prod.fst (List.filter_sublist l)

theorem contains_of_mem {l : List String} {a : String} (h : a ∈ l) :
    l.contains a = true := by
  simpa [List.contains] using List.elem_iff.mpr h

theorem mem_of_contains {l : List String} {a : String} (h : l.contains a = true) :
    a ∈ l :=
  List.elem_iff.mp (by simpa [List.contains] using h)

/-! ### The building fold of upstream_tree -/

theorem processBranch_ok {bk : Backend} {active : String} {keys : List String}
    {m m₁ : List (String × NodeData)} {b : String} {u : Option String}
    (hp : processBranch bk active keys m (b, u) = .ok m₁) :
    ∃ behind ahead hsh ttl,
      commit_count_difference bk (some b) u = .ok behind ∧
      commit_count_difference bk u (some b) = .ok ahead ∧
      latest_commit_hash bk b = .ok hsh ∧
      latest_commit_title bk b = .ok ttl ∧
      m₁ = (match u with
            | some pn =>
              if keys.contains pn then
                updateNode (updateNode m b (setMeta behind ahead hsh ttl (b == active)))
                  pn (addChild b)
              else
                updateNode (updateNode m b (setMeta behind ahead hsh ttl (b == active)))
                  b setRoot
            | none =>
              updateNode (updateNode m b (setMeta behind ahead hsh ttl (b == active)))
                b setRoot) := by
  unfold processBranch at hp
  simp only [bind, Except.bind] at hp
  cases hbe : commit_count_difference bk (some b) u with
  | error e => rw [hbe] at hp; exact absurd hp (by simp)
  | ok behind =>
    rw [hbe] at hp
    cases hah : commit_count_difference bk u (some b) with
    | error e => rw [hah] at hp; exact absurd hp (by simp)
    | ok ahead =>
      rw [hah] at hp
      cases hhs : latest_commit_hash bk b with
      | error e => rw [hhs] at hp; exact absurd hp (by simp)
      | ok hsh =>
        rw [hhs] at hp
        cases htt : latest_commit_title bk b with
        | error e => rw [htt] at hp; exact absurd hp (by simp)
        | ok ttl =>
          rw [htt] at hp
          refine ⟨behind, ahead, hsh, ttl, rfl, rfl, rfl, rfl, ?_⟩
          cases u with
          | none =>
            simp only [pure, Except.pure, Except.ok.injEq] at hp
            exact hp.symm
          | some pn =>
            by_cases hc : keys.contains pn = true
            · simp only [hc, if_true, pure, Except.pure, Except.ok.injEq] at hp ⊢
              exact hp.symm
            · rw [Bool.not_eq_true] at hc
              simp only [hc, Bool.false_eq_true, if_false, pure, Except.pure,
                Except.ok.injEq] at hp ⊢
              exact hp.symm

theorem build_step (bk : Backend) (active : String) (keys : List String)
    (done : List (String × Option String)) (b : String) (u : Option String)
    (m m₁ : List (String × NodeData))
    (hbk : b ∈ keys) (hbd : b ∉ done.map Prod.fst)
    (hinv : BuildInv bk active keys done m)
    (hp : processBranch bk active keys m (b, u) = .ok m₁) :
    BuildInv bk active keys (done ++ [(b, u)]) m₁ := by
  obtain ⟨hkeys, hnodes⟩ := hinv
  obtain ⟨behind, ahead, hsh, ttl, hbe, hah, hhs, htt, hm₁⟩ := processBranch_ok hp
  have hkeys₁ : m₁.map Prod.fst = keys := by
    rw [hm₁]
    cases u with
    | none => rw [updateNode_keys, updateNode_keys, hkeys]
    | some pn =>
      by_cases hc : keys.contains pn = true
      · simp only [hc, if_true]
        rw [updateNode_keys, updateNode_keys, hkeys]
      · rw [Bool.not_eq_true] at hc
        simp only [hc, Bool.false_eq_true, if_false]
        rw [updateNode_keys, updateNode_keys, hkeys]
  refine ⟨hkeys₁, fun b' hb' => ?_⟩
  obtain ⟨nd, hlk, hname, hch, hinit, hdone⟩ := hnodes b' hb'
  by_cases hbb : b' = b
  -- the node of the branch being processed
  · subst hbb
    have hinitv := hinit hbd
    have hactive : (setMeta behind ahead hsh ttl (b' == active) nd).active
        = (b' == active) := by
      cases hba : (b' == active) <;> simp [setMeta, hba, hinitv.2.1]
    -- case on the shape of the final update
    cases u with
    | none =>
      refine ⟨setRoot (setMeta behind ahead hsh ttl (b' == active) nd), ?_, ?_, ?_, ?_, ?_⟩
      · rw [hm₁, lookup_updateNode_self, lookup_updateNode_self, hlk]
        rfl
      · simp [setRoot, setMeta, hname]
      · rw [childPairs_append_one]
        simp only [reduceCtorEq, if_false, List.append_nil]
        simp [setRoot, setMeta, hch]
      · intro hmem
        exact absurd (by simp) hmem
      · intro u' hu'
        rcases List.mem_append.mp hu' with hd | hd
        · exact absurd (List.mem_map_of_mem Prod.fst hd) hbd
        · simp only [List.mem_singleton, Prod.mk.injEq] at hd
          rw [hd.2]
          refine ⟨by simp [setRoot, rootFlag], by simp [setRoot]; exact hactive, ?_, ?_, ?_, ?_⟩
          · exact hbe
          · exact hah
          · exact hhs
          · exact htt
    | some pn =>
      by_cases hc : keys.contains pn = true
      · -- resolvable upstream: b' is appended to pn's children
        by_cases hpb : pn = b'
        · -- the self-loop case: the parent is the branch itself
          subst hpb
          refine ⟨addChild pn (setMeta behind ahead hsh ttl (pn == active) nd),
            ?_, ?_, ?_, ?_, ?_⟩
          · rw [hm₁]
            simp only [hc, if_true]
            rw [lookup_updateNode_self, lookup_updateNode_self, hlk]
            rfl
          · simp [addChild, setMeta, hname]
          · rw [childPairs_append_one]
            simp only [if_pos rfl]
            simp [addChild, setMeta, hch]
          · intro hmem
            exact absurd (by simp) hmem
          · intro u' hu'
            rcases List.mem_append.mp hu' with hd | hd
            · exact absurd (List.mem_map_of_mem Prod.fst hd) hbd
            · simp only [List.mem_singleton, Prod.mk.injEq] at hd
              rw [hd.2]
              refine ⟨?_, by simp [addChild]; exact hactive, hbe, hah, hhs, htt⟩
              simp only [addChild, setMeta, rootFlag, hc, Bool.not_true]
              exact hinitv.1
        · -- ordinary resolvable upstream pn distinct from the branch
          refine ⟨setMeta behind ahead hsh ttl (b' == active) nd, ?_, ?_, ?_, ?_, ?_⟩
          · rw [hm₁]
            simp only [hc, if_true]
            rw [lookup_updateNode_ne _ _ _ _ (fun he => hpb he.symm),
              lookup_updateNode_self, hlk]
            rfl
          · simp [setMeta, hname]
          · rw [childPairs_append_one]
            have : (some pn = some b') = False := by
              simp only [Option.some.injEq, eq_iff_iff, iff_false]
              exact hpb
            simp only [this, if_false, List.append_nil]
            simp [setMeta, hch]
          · intro hmem
            exact absurd (by simp) hmem
          · intro u' hu'
            rcases List.mem_append.mp hu' with hd | hd
            · exact absurd (List.mem_map_of_mem Prod.fst hd) hbd
            · simp only [List.mem_singleton, Prod.mk.injEq] at hd
              rw [hd.2]
              refine ⟨?_, hactive, hbe, hah, hhs, htt⟩
              simp only [setMeta, rootFlag, hc, Bool.not_true]
              exact hinitv.1
      · -- unresolvable upstream: root
        rw [Bool.not_eq_true] at hc
        refine ⟨setRoot (setMeta behind ahead hsh ttl (b' == active) nd), ?_, ?_, ?_, ?_, ?_⟩
        · rw [hm₁]
          simp only [hc, Bool.false_eq_true, if_false]
          rw [lookup_updateNode_self, lookup_updateNode_self, hlk]
          rfl
        · simp [setRoot, setMeta, hname]
        · rw [childPairs_append_one]
          have hpb : pn ≠ b' := by
            intro he
            rw [he, contains_of_mem hb'] at hc
            cases hc
          have : (some pn = some b') = False := by
            simp only [Option.some.injEq, eq_iff_iff, iff_false]
            exact hpb
          simp only [this, if_false, List.append_nil]
          simp [setRoot, setMeta, hch]
        · intro hmem
          exact absurd (by simp) hmem
        · intro u' hu'
          rcases List.mem_append.mp hu' with hd | hd
          · exact absurd (List.mem_map_of_mem Prod.fst hd) hbd
          · simp only [List.mem_singleton, Prod.mk.injEq] at hd
            rw [hd.2]
            refine ⟨?_, by simp [setRoot]; exact hactive, hbe, hah, hhs, htt⟩
            simp only [setRoot, rootFlag, hc, Bool.not_false]
  -- a node other than the branch being processed
  · have hbd' : ∀ u', (b', u') ∈ done ++ [(b, u)] → (b', u') ∈ done := by
      intro u' hu'
      rcases List.mem_append.mp hu' with hd | hd
      · exact hd
      · simp only [List.mem_singleton, Prod.mk.injEq] at hd
        exact absurd hd.1 hbb
    have hmem' : b' ∉ (done ++ [(b, u)]).map Prod.fst → b' ∉ done.map Prod.fst := by
      intro hmem hcon
      exact hmem (by simp [hcon])
    cases u with
    | none =>
      refine ⟨nd, ?_, hname, ?_, fun hmem => hinit (hmem' hmem), ?_⟩
      · rw [hm₁, lookup_updateNode_ne _ _ _ _ hbb, lookup_updateNode_ne _ _ _ _ hbb, hlk]
      · rw [childPairs_append_one]
        simp only [reduceCtorEq, if_false, List.append_nil]
        exact hch
      · intro u' hu'
        exact hdone u' (hbd' u' hu')
    | some pn =>
      by_cases hc : keys.contains pn = true
      · by_cases hpb : pn = b'
        · -- b' is the parent of the processed branch: a child is appended
          subst hpb
          refine ⟨addChild b nd, ?_, by simp [addChild, hname], ?_,
            fun hmem => ?_, fun u' hu' => ?_⟩
          · rw [hm₁]
            simp only [hc, if_true]
            rw [lookup_updateNode_self, lookup_updateNode_ne _ _ _ _ hbb, hlk]
            rfl
          · rw [childPairs_append_one]
            simp only [if_pos rfl]
            simp [addChild, hch]
          · have hv := hinit (hmem' hmem)
            simpa [addChild] using hv
          · have hv := hdone u' (hbd' u' hu')
            simpa [addChild] using hv
        · -- unrelated node
          refine ⟨nd, ?_, hname, ?_, fun hmem => hinit (hmem' hmem), fun u' hu' => hdone u' (hbd' u' hu')⟩
          · rw [hm₁]
            simp only [hc, if_true]
            rw [lookup_updateNode_ne _ _ _ _ (fun he => hpb he.symm),
              lookup_updateNode_ne _ _ _ _ hbb, hlk]
          · rw [childPairs_append_one]
            have : (some pn = some b') = False := by
              simp only [Option.some.injEq, eq_iff_iff, iff_false]
              exact hpb
            simp only [this, if_false, List.append_nil]
            exact hch
      · rw [Bool.not_eq_true] at hc
        have hpb : pn ≠ b' := by
          intro he
          rw [he, contains_of_mem hb'] at hc
          cases hc
        refine ⟨nd, ?_, hname, ?_, fun hmem => hinit (hmem' hmem), fun u' hu' => hdone u' (hbd' u' hu')⟩
        · rw [hm₁]
          simp only [hc, Bool.false_eq_true, if_false]
          rw [lookup_updateNode_ne _ _ _ _ hbb, lookup_updateNode_ne _ _ _ _ hbb, hlk]
        · rw [childPairs_append_one]
          have : (some pn = some b') = False := by
            simp only [Option.some.injEq, eq_iff_iff, iff_false]
            exact hpb
          simp only [this, if_false, List.append_nil]
          exact hch

theorem build_fold (bk : Backend) (active : String) (keys : List String) :
    ∀ (todo done : List (String × Option String)) (m out : List (String × NodeData)),
      keys = (done ++ todo).map Prod.fst →
      keys.Nodup →
      BuildInv bk active keys done m →
      List.foldlM (processBranch bk active keys) m todo = .ok out →
      BuildInv bk active keys (done ++ todo) out := by
  intro todo
  induction todo with
  | nil =>
    intro done m out hk hnd hinv hfold
    rw [List.foldlM_nil] at hfold
    have : m = out := by
      simpa [pure, Except.pure] using hfold
    rw [List.append_nil]
    exact this ▸ hinv
  | cons q rest ih =>
    intro done m out hk hnd hinv hfold
    obtain ⟨b, u⟩ := q
    rw [List.foldlM_cons] at hfold
    cases hp : processBranch bk active keys m (b, u) with
    | error e =>
      rw [hp] at hfold
      exact absurd hfold (by simp [bind, Except.bind])
    | ok m₁ =>
      rw [hp] at hfold
      simp only [bind, Except.bind] at hfold
      have hbk : b ∈ keys := by
        rw [hk]
        simp
      have hbd : b ∉ done.map Prod.fst := by
        intro hmem
        have hnd' := hnd
        rw [hk, List.map_append, List.nodup_append] at hnd'
        exact hnd'.2.2 hmem (by simp)
      have hstep := build_step bk active keys done b u m m₁ hbk hbd hinv hp
      have hk' : keys = ((done ++ [(b, u)]) ++ rest).map Prod.fst := by
        rw [hk]
        simp
      have hres := ih (done ++ [(b, u)]) m₁ out hk' hnd hstep hfold
      rw [List.append_assoc] at hres
      simpa using hres

theorem lookup_sortChildren (m : List (String × NodeData)) (k : String) :
    (sortChildren m).lookup k
      = (m.lookup k).map fun nd =>
          { nd with children := nd.children.insertionSort pyStrLe } := by
  unfold sortChildren
  exact lookup_map_entry m
    (fun nd => { nd with children := nd.children.insertionSort pyStrLe }) k

/-- A successful upstream_tree run is the children-sorted form of a state
satisfying the full building invariant over the entire branch list. -/
theorem upstream_tree_char (bk : Backend) (nodes : List (String × NodeData))
    (hnd : ((gather_upstreams bk).map Prod.fst).Nodup)
    (hok : upstream_tree bk = .ok nodes) :
    ∃ active m, current_branch bk = .ok active ∧
      BuildInv bk active ((gather_upstreams bk).map Prod.fst) (gather_upstreams bk) m ∧
      nodes = sortChildren m := by
  unfold upstream_tree at hok
  cases hcb : current_branch bk with
  | error e =>
    rw [hcb] at hok
    exact absurd hok (by simp [bind, Except.bind])
  | ok active =>
    rw [hcb] at hok
    simp only [bind, Except.bind] at hok
    cases hfold : List.foldlM
        (processBranch bk active ((gather_upstreams bk).map Prod.fst))
        ((gather_upstreams bk).map fun p => (p.1, initNode p.1))
        (gather_upstreams bk) with
    | error e => rw [hfold] at hok; exact absurd hok (by simp)
    | ok m =>
      rw [hfold] at hok
      simp only [pure, Except.pure, Except.ok.injEq] at hok
      have hbase : BuildInv bk active ((gather_upstreams bk).map Prod.fst) []
          ((gather_upstreams bk).map fun p => (p.1, initNode p.1)) := by
        refine ⟨by simp, fun b hb => ?_⟩
        exact ⟨initNode b, lookup_map_init _ b hb, rfl, rfl,
          fun _ => ⟨rfl, rfl, rfl, rfl, rfl, rfl⟩, fun u hu => absurd hu (by simp)⟩
      have hmain := build_fold bk active ((gather_upstreams bk).map Prod.fst)
        (gather_upstreams bk) [] _ m (by simp) hnd hbase hfold
      exact ⟨active, m, rfl, by simpa using hmain, hok.symm⟩

theorem sortChildren_keys (m : List (String × NodeData)) :
    (sortChildren m).map Prod.fst = m.map Prod.fst := by
  unfold sortChildren
  rw [List.map_map]
  rfl

/-- C1: for every upstream mapping the backend can return (branch names
are distinct, as git refs are; no acyclicity is needed for this shape
property), upstream_tree marks a node as root exactly when its normalized
upstream is absent (the empty string or an origin/ upstream, normalized
away by gather_upstreams) or is not a key of the local branch set, and a
branch c sits in the children list of a node p exactly when c's
normalized upstream is p and p is a local branch. -/
theorem c1_forest_shape (bk : Backend) (nodes : List (String × NodeData))
    (hnd : ((gather_upstreams bk).map Prod.fst).Nodup)
    (hok : upstream_tree bk = .ok nodes) :
    (∀ b u, (b, u) ∈ gather_upstreams bk →
       ∃ nd, nodes.lookup b = some nd ∧
         nd.root = rootFlag ((gather_upstreams bk).map Prod.fst) u) ∧
    (∀ p c, (∃ nd, nodes.lookup p = some nd ∧ c ∈ nd.children) ↔
       ((c, some p) ∈ gather_upstreams bk ∧
        p ∈ (gather_upstreams bk).map Prod.fst)) := by
  obtain ⟨active, m, hcb, ⟨hkeys, hinv⟩, hsort⟩ := upstream_tree_char bk nodes hnd hok
  constructor
  · intro b u hbu
    have hb : b ∈ (gather_upstreams bk).map Prod.fst := List.mem_map_of_mem Prod.fst hbu
    obtain ⟨nd, hlk, hname, hch, hinit, hdone⟩ := hinv b hb
    refine ⟨{ nd with children := nd.children.insertionSort pyStrLe }, ?_, (hdone u hbu).1⟩
    rw [hsort, lookup_sortChildren, hlk]
    rfl
  · intro p c
    constructor
    · rintro ⟨nd', hlk', hc⟩
      have hpk : p ∈ (gather_upstreams bk).map Prod.fst := by
        have hmem := lookup_mem_of_some hlk'
        rw [hsort, sortChildren_keys, hkeys] at hmem
        exact hmem
      obtain ⟨nd, hlk, hname, hch, hinit, hdone⟩ := hinv p hpk
      have hnd' : nd' = { nd with children := nd.children.insertionSort pyStrLe } := by
        rw [hsort, lookup_sortChildren, hlk] at hlk'
        exact ((Option.some.injEq _ _).mp hlk').symm
      rw [hnd'] at hc
      have hc2 : c ∈ nd.children :=
        (List.perm_insertionSort pyStrLe nd.children).mem_iff.mp hc
      rw [hch] at hc2
      exact ⟨(mem_childPairs _ c p).mp hc2, hpk⟩
    · rintro ⟨hcp, hpk⟩
      obtain ⟨nd, hlk, hname, hch, hinit, hdone⟩ := hinv p hpk
      refine ⟨{ nd with children := nd.children.insertionSort pyStrLe }, ?_, ?_⟩
      · rw [hsort, lookup_sortChildren, hlk]
        rfl
      · show c ∈ nd.children.insertionSort pyStrLe
        refine (List.perm_insertionSort pyStrLe nd.children).mem_iff.mpr ?_
        rw [hch]
        exact (mem_childPairs _ c p).mpr hcp

theorem c1_witness :
    ((gather_upstreams bkEx).map Prod.fst).Nodup ∧
    upstream_tree bkEx = .ok nodesEx ∧
    (∃ nd, nodesEx.lookup "fun_branch" = some nd ∧
       nd.root = rootFlag ((gather_upstreams bkEx).map Prod.fst) (some "test_branch")) ∧
    ((∃ nd, nodesEx.lookup "test_branch" = some nd ∧ "fun_branch" ∈ nd.children) ↔
       (("fun_branch", some "test_branch") ∈ gather_upstreams bkEx ∧
        "test_branch" ∈ (gather_upstreams bkEx).map Prod.fst)) := by
  have h := c1_forest_shape bkEx nodesEx (by decide) rfl
  exact ⟨by decide, rfl, h.1 "fun_branch" (some "test_branch") (by decide),
    h.2 "test_branch" "fun_branch"⟩

/-- C6: in every forest the builder produces, each node's children list is
strictly sorted by branch name ascending (Python code-point order), and
the renderer's root ordering step sorts the root nodes by the pair
(childCount ascending, name ascending). -/
theorem c6_sort_order :
    (∀ (bk : Backend) (nodes : List (String × NodeData)),
        ((gather_upstreams bk).map Prod.fst).Nodup →
        upstream_tree bk = .ok nodes →
        ∀ p ∈ nodes, List.Pairwise (fun a b => pyStrLe a b ∧ a ≠ b) p.2.children) ∧
    (∀ roots : List RTree, List.Sorted rootKeyLe (sortRoots roots)) := by
  constructor
  · intro bk nodes hnd hok p hp
    obtain ⟨active, m, hcb, ⟨hkeys, hinv⟩, hsort⟩ := upstream_tree_char bk nodes hnd hok
    rw [hsort] at hp
    unfold sortChildren at hp
    obtain ⟨q, hq, hqe⟩ := List.mem_map.mp hp
    have hq1 : q.1 ∈ (gather_upstreams bk).map Prod.fst := by
      rw [← hkeys]
      exact List.mem_map_of_mem Prod.fst hq
    obtain ⟨nd, hlk, hname, hch, hinit, hdone⟩ := hinv q.1 hq1
    have hqnd : q.2 = nd := by
      have hq2 := lookup_of_mem_nodup (by rw [hkeys]; exact hnd) hq
      rw [hlk] at hq2
      exact ((Option.some.injEq _ _).mp hq2).symm
    have hsorted : List.Sorted pyStrLe (q.2.children.insertionSort pyStrLe) :=
      @List.sorted_insertionSort String pyStrLe _ ⟨pyStrLe_total⟩
        ⟨fun a b c h1 h2 => pyStrLe_trans h1 h2⟩ q.2.children
    have hnodup : (q.2.children.insertionSort pyStrLe).Nodup := by
      have hsub : q.2.children.Sublist ((gather_upstreams bk).map Prod.fst) := by
        rw [hqnd, hch]
        exact childPairs_sublist_keys _ _
      exact (List.perm_insertionSort pyStrLe q.2.children).symm.nodup (hsub.nodup hnd)
    rw [← hqe]
    exact List.Pairwise.and hsorted hnodup
  · intro roots
    unfold sortRoots
    exact @List.sorted_insertionSort RTree rootKeyLe _ ⟨rootKeyLe_total⟩
      ⟨fun a b c h1 h2 => rootKeyLe_trans h1 h2⟩ roots

theorem c6_witness :
    ((gather_upstreams bkEx).map Prod.fst).Nodup ∧
    upstream_tree bkEx = .ok nodesEx ∧
    (∀ p ∈ nodesEx, List.Pairwise (fun a b => pyStrLe a b ∧ a ≠ b) p.2.children) ∧
    List.Sorted rootKeyLe (sortRoots [rtY, rtX]) :=
  ⟨by decide, rfl, c6_sort_order.1 bkEx nodesEx (by decide) rfl, c6_sort_order.2 [rtY, rtX]⟩

/-- C8 counterexample: in bk8 the branch beta has the local upstream
alpha, and the rev-list count query returns no output line; the builder
does not fail, it returns the complete forest with beta's behind and
ahead silently set to None, the same sentinel a missing upstream
produces.  A missing expected output line is therefore not surfaced as a
hard error by commit_count_difference. -/
theorem c8_counterexample :
    (upstream_tree bk8).map (List.map fun p => (p.1, p.2.behind, p.2.ahead))
      = .ok [("alpha", none, none), ("beta", none, none)] := rfl

/-- C8 amended: the builder is inconsistent about missing backend output.
current_branch (like the hash and title queries) indexes the first output
line and aborts the whole build with an IndexError when there is none,
but a missing rev-list count line is silently conflated with the
missing-upstream sentinel: commit_count_difference yields None and the
builder returns a complete forest whose counts are all None. -/
theorem c8_amended :
    (∀ bk : Backend, bk.currentLines = [] →
        upstream_tree bk = .error "current_branch: IndexError: list index out of range") ∧
    (∀ bk : Backend, ((gather_upstreams bk).map Prod.fst).Nodup →
        (∀ x y, bk.revListLines x y = []) →
        ∀ nodes, upstream_tree bk = .ok nodes →
          ∀ p ∈ nodes, p.2.behind = none ∧ p.2.ahead = none) := by
  constructor
  · intro bk h
    unfold upstream_tree
    rw [show current_branch bk
        = .error "current_branch: IndexError: list index out of range" from by
      unfold current_branch firstLine
      rw [h]
      rfl]
    simp [bind, Except.bind]
  · intro bk hnd hrev nodes hok p hp
    obtain ⟨active, m, hcb, ⟨hkeys, hinv⟩, hsort⟩ := upstream_tree_char bk nodes hnd hok
    rw [hsort] at hp
    unfold sortChildren at hp
    obtain ⟨q, hq, hqe⟩ := List.mem_map.mp hp
    have hq1 : q.1 ∈ (gather_upstreams bk).map Prod.fst := by
      rw [← hkeys]
      exact List.mem_map_of_mem Prod.fst hq
    obtain ⟨u, hu⟩ : ∃ u, (q.1, u) ∈ gather_upstreams bk := by
      obtain ⟨x, hx, hx1⟩ := List.mem_map.mp hq1
      exact ⟨x.2, by rw [show (q.1, x.2) = x from by rw [← hx1]]; exact hx⟩
    obtain ⟨nd, hlk, hname, hch, hinit, hdone⟩ := hinv q.1 hq1
    have hqnd : q.2 = nd := by
      have hq2 := lookup_of_mem_nodup (by rw [hkeys]; exact hnd) hq
      rw [hlk] at hq2
      exact ((Option.some.injEq _ _).mp hq2).symm
    have hfields := hdone u hu
    have hbehind : nd.behind = none := by
      have hb := hfields.2.2.1
      cases u with
      | none =>
        rw [show commit_count_difference bk (some q.1) none = Except.ok none from rfl] at hb
        exact ((Except.ok.injEq _ _).mp hb).symm
      | some y =>
        rw [show commit_count_difference bk (some q.1) (some y) = Except.ok none from by
          simp only [commit_count_difference, hrev]] at hb
        exact ((Except.ok.injEq _ _).mp hb).symm
    have hahead : nd.ahead = none := by
      have ha := hfields.2.2.2.1
      cases u with
      | none =>
        rw [show commit_count_difference bk none (some q.1) = Except.ok none from rfl] at ha
        exact ((Except.ok.injEq _ _).mp ha).symm
      | some y =>
        rw [show commit_count_difference bk (some y) (some q.1) = Except.ok none from by
          simp only [commit_count_difference, hrev]] at ha
        exact ((Except.ok.injEq _ _).mp ha).symm
    rw [← hqe]
    exact ⟨by rw [hqnd]; exact hbehind, by rw [hqnd]; exact hahead⟩

theorem c8_witness :
    upstream_tree bk8e = .error "current_branch: IndexError: list index out of range" ∧
    ((gather_upstreams bk8).map Prod.fst).Nodup ∧
    (∀ p ∈ nodes8, p.2.behind = none ∧ p.2.ahead = none) :=
  ⟨c8_amended.1 bk8e rfl, by decide,
    c8_amended.2 bk8 (by decide) (fun x y => rfl) nodes8 rfl⟩

end GitTools
